import Mathlib

/-!
# Graph signal processing core: formal model and verification

The repository consists of a single instructional notebook
(`module_4/M4_NB4_GraphSignalProcessing.ipynb`) whose code cells are
non-executed `%%html` fragments.  Part 1 below transcribes the structure of
that notebook (cell kinds and the operations of the filtering demo cell).
Part 2 models, from the specification, the hypothetical minimal core the
spec describes: `SpectralBasisBuilder` (graph Laplacian and its
eigendecomposition) and `SpectralFilter` (analysis / weighting / synthesis).
Part 3 proves the stated properties.
-/

namespace GSP

/-! ## Part 1: the notebook as it appears in the repository -/

/-- Kind of a notebook cell.  Transcribed from
`module_4/M4_NB4_GraphSignalProcessing.ipynb`: every code cell of the
notebook starts with the `%%html` magic, so that running it renders HTML
instead of executing the Python source it displays. -/
inductive CellKind where
  | markdownCell : CellKind
  | htmlMagicCell : CellKind
  deriving DecidableEq, Repr

open CellKind

/-- The eleven cells of the notebook, in order.  Cells 5 and 7 are the two
code cells (library imports and the filtering demo); both carry the
`%%html` magic.  All other cells are markdown (the trailing empty cell is
recorded as markdown). -/
def notebookCells : List CellKind :=
  [markdownCell, markdownCell, markdownCell, markdownCell, markdownCell,
   htmlMagicCell, markdownCell, htmlMagicCell, markdownCell, markdownCell,
   markdownCell]

/-- One operation of the demo cell (cell 7) of the notebook, or one step of
the spec's `SpectralFilter.apply` procedure, for comparing the two
pipelines. -/
inductive DemoOp where
  | createSensorGraph : DemoOp
  | computeFourierBasis : DemoOp
  | selectFiedlerVector : DemoOp
  | addGaussianNoise : DemoOp
  | constructExpwin : DemoOp
  | analysisCall : DemoOp
  | weightingStep : DemoOp
  | synthesisStep : DemoOp
  | plotSignal : DemoOp
  deriving DecidableEq, Repr

open DemoOp

/-- The operations of the demo cell (cell 7), in source order: build a
sensor graph, compute its Fourier basis, take the Fiedler vector, add
noise, construct an `Expwin` filter, compute the displayed filtered signal
by the single call `s = filter.analysis(y)`, then three plot calls. -/
def demoCellOps : List DemoOp :=
  [createSensorGraph, computeFourierBasis, selectFiedlerVector,
   addGaussianNoise, constructExpwin, analysisCall,
   plotSignal, plotSignal, plotSignal]

/-- The ops of the demo cell that produce the displayed filtered signal:
exactly the one `analysis` call. -/
def demoFilterOps : List DemoOp := [analysisCall]

/-- Modelled from the spec: the three steps of `SpectralFilter.apply`
(Section 4.2): analysis, weighting, synthesis. -/
def specApplySteps : List DemoOp := [analysisCall, weightingStep, synthesisStep]

/-! ## Part 2: the spec-modelled core

No implementation of `SpectralBasisBuilder` or `SpectralFilter` exists in
the repository; the definitions below are modelled from the specification
(Sections 3, 4.1, 4.2 and 7), with real scalars, vectors as lists of reals
and matrices as lists of rows. -/

/-- Entry `i j` of a matrix given as a list of rows (0 outside bounds). -/
def entry (W : List (List ℝ)) (i j : ℕ) : ℝ := (W.getD i []).getD j 0

/-- Modelled from the spec: the degree of vertex `i`, the sum of row `i`
of the weight matrix. -/
def degree (W : List (List ℝ)) (i : ℕ) : ℝ := (W.getD i []).sum

/-- Modelled from the spec: a valid graph is a square weight matrix that
is symmetric with non-negative entries (Section 4.1's input contract; its
violation is exactly the `InvalidGraphError` condition). -/
def ValidGraph (W : List (List ℝ)) : Prop :=
  (∀ row ∈ W, row.length = W.length) ∧
  (∀ i j, i < W.length → j < W.length → entry W i j = entry W j i) ∧
  (∀ i j, 0 ≤ entry W i j)

/-- Modelled from the spec: the graph Laplacian `L = D - W`, with
`D[i][i]` the sum of row `i` of `W` (Section 3). -/
def laplacian (W : List (List ℝ)) : List (List ℝ) :=
  (List.range W.length).map fun i =>
    (List.range W.length).map fun j =>
      (if i = j then degree W i else 0) - entry W i j

/-- Inner product of two vectors. -/
def dot (u v : List ℝ) : ℝ := (List.zipWith (· * ·) u v).sum

/-- Scalar multiple of a vector. -/
def scale (c : ℝ) (u : List ℝ) : List ℝ := u.map fun x => c * x

/-- Componentwise sum of two vectors. -/
def vadd (u v : List ℝ) : List ℝ := List.zipWith (· + ·) u v

/-- The zero vector of length `n`. -/
def zeros (n : ℕ) : List ℝ := List.replicate n 0

/-- Matrix-vector product, row by row. -/
def mulVecL (M : List (List ℝ)) (v : List ℝ) : List ℝ := M.map fun row => dot row v

/-- Modelled from the spec: a `SpectralBasis` is an ordered list of
(eigenvalue, eigenvector) pairs (Section 3). -/
structure SpectralBasis where
  pairs : List (ℝ × List ℝ)

/-- The dimension `N` of a basis. -/
def SpectralBasis.dim (b : SpectralBasis) : ℕ := b.pairs.length

/-- The eigenvalues of a basis, in order. -/
def SpectralBasis.eigenvalues (b : SpectralBasis) : List ℝ := b.pairs.map Prod.fst

/-- Modelled from the spec: the invariants of a `SpectralBasis` produced
for a Laplacian `L` (Sections 3 and 4.1): one pair per vertex, eigenvectors
of length `N` satisfying the eigen-equation, mutually orthonormal, and the
list sorted ascending by eigenvalue. -/
structure IsBasisFor (L : List (List ℝ)) (b : SpectralBasis) : Prop where
  dim_eq : b.pairs.length = L.length
  vec_len : ∀ p ∈ b.pairs, p.2.length = L.length
  eigen : ∀ p ∈ b.pairs, mulVecL L p.2 = scale p.1 p.2
  ortho : ∀ i j : Fin b.pairs.length,
    dot (b.pairs.get i).2 (b.pairs.get j).2 = if i = j then 1 else 0
  sorted : b.eigenvalues.Sorted (· ≤ ·)

/-- Modelled from the spec: the error taxonomy of `SpectralBasisBuilder`
(Section 7). -/
inductive BuildError where
  | invalidGraphError : BuildError
  | numericalError : BuildError
  deriving DecidableEq, Repr

/-- Modelled from the spec: the error of `SpectralFilter` (Section 7). -/
inductive FilterError where
  | dimensionMismatchError : FilterError
  deriving DecidableEq, Repr

/-- Modelled from the spec: the input/output relation of
`SpectralBasisBuilder.build` (Section 4.1).  An invalid weight matrix
yields `InvalidGraphError`; a valid one yields a spectral basis of its
Laplacian, or `NumericalError` should the eigensolver fail to converge. -/
def Build (W : List (List ℝ)) (r : Except BuildError SpectralBasis) : Prop :=
  (¬ ValidGraph W ∧ r = Except.error BuildError.invalidGraphError) ∨
  (ValidGraph W ∧
    ((∃ b, r = Except.ok b ∧ IsBasisFor (laplacian W) b) ∨
      r = Except.error BuildError.numericalError))

/-- Modelled from the spec: `SpectralFilter.apply` (Section 4.2).
Checks the signal length against the basis dimension, then performs
analysis (inner products with the eigenvectors), weighting (multiplication
by `filterFn` at each eigenvalue) and synthesis (weighted sum of the
eigenvectors). -/
def SpectralFilter.apply (b : SpectralBasis) (signal : List ℝ)
    (filterFn : ℝ → ℝ) : Except FilterError (List ℝ) :=
  if signal.length = b.dim then
    Except.ok ((b.pairs.map fun p =>
      scale (filterFn p.1 * dot p.2 signal) p.2).foldr vadd (zeros b.dim))
  else
    Except.error FilterError.dimensionMismatchError

/-- Modelled from the spec: the numerical tolerance (Section 9 suggests
`1e-9`). -/
noncomputable def eps : ℝ := 1 / 1000000000

/-- The 4-vertex cycle graph with unit weights on edges 0-1, 1-2, 2-3,
3-0. -/
def cycle4 : List (List ℝ) :=
  [[0, 1, 0, 1], [1, 0, 1, 0], [0, 1, 0, 1], [1, 0, 1, 0]]

/-! ## Part 3: auxiliary lemmas on vectors and matrices as lists -/

lemma getD_map_range {β : Type} (f : ℕ → β) (d : β) {n j : ℕ} (h : j < n) :
    ((List.range n).map f).getD j d = f j := by
  rw [List.getD_eq_getElem _ _ (by simpa using h)]
  simp

lemma map_range_sum (f : ℕ → ℝ) (n : ℕ) :
    ((List.range n).map f).sum = ∑ j ∈ Finset.range n, f j := by
  induction n with
  | zero => simp
  | succ n ih => rw [List.range_succ, List.map_append, List.sum_append,
      Finset.sum_range_succ, ih]; simp

lemma sum_eq_sum_getD (l : List ℝ) :
    l.sum = ∑ j ∈ Finset.range l.length, l.getD j 0 := by
  induction l with
  | nil => simp
  | cons a l ih =>
      rw [List.sum_cons, List.length_cons, Finset.sum_range_succ', ih]
      simp [add_comm]

lemma dot_eq_sum : ∀ {n : ℕ} {u v : List ℝ}, u.length = n → v.length = n →
    dot u v = ∑ i ∈ Finset.range n, u.getD i 0 * v.getD i 0 := by
  intro n
  induction n with
  | zero =>
      intro u v hu hv
      rw [List.length_eq_zero] at hu hv
      subst hu; subst hv; simp [dot]
  | succ n ih =>
      intro u v hu hv
      match u, v with
      | a :: u, b :: v =>
          simp only [List.length_cons, Nat.succ_inj] at hu hv
          rw [Finset.sum_range_succ']
          simp only [List.getD_cons_succ, List.getD_cons_zero]
          rw [← ih hu hv]
          simp [dot, add_comm]

lemma scale_length (c : ℝ) (u : List ℝ) : (scale c u).length = u.length := by
  simp [scale]

lemma scale_getD (c : ℝ) (u : List ℝ) (i : ℕ) :
    (scale c u).getD i 0 = c * u.getD i 0 := by
  by_cases h : i < u.length
  · rw [List.getD_eq_getElem _ _ (by simpa [scale] using h),
      List.getD_eq_getElem _ _ h]
    simp [scale]
  · rw [List.getD_eq_default _ _ (by simpa [scale] using Nat.le_of_not_lt h),
      List.getD_eq_default _ _ (Nat.le_of_not_lt h)]
    simp

lemma vadd_length {u v : List ℝ} (h : u.length = v.length) :
    (vadd u v).length = u.length := by
  simp [vadd, h]

lemma vadd_getD : ∀ {u v : List ℝ}, u.length = v.length → ∀ i : ℕ,
    (vadd u v).getD i 0 = u.getD i 0 + v.getD i 0 := by
  intro u
  induction u with
  | nil =>
      intro v h i
      have hv : v = [] := List.length_eq_zero.mp (by simpa using h.symm)
      subst hv; simp [vadd]
  | cons a u ih =>
      intro v h i
      match v with
      | b :: v =>
          simp only [List.length_cons, Nat.succ_inj] at h
          match i with
          | 0 => simp [vadd]
          | i + 1 =>
              simp only [vadd, List.zipWith_cons_cons, List.getD_cons_succ]
              exact ih h i

lemma zeros_length (n : ℕ) : (zeros n).length = n := by simp [zeros]

lemma zeros_getD (n i : ℕ) : (zeros n).getD i 0 = 0 := by
  by_cases h : i < n
  · rw [List.getD_eq_getElem _ _ (by simpa [zeros] using h)]
    simp [zeros]
  · rw [List.getD_eq_default _ _ (by simpa [zeros] using Nat.le_of_not_lt h)]

lemma foldr_vadd_length {n : ℕ} : ∀ (vs : List (List ℝ)),
    (∀ v ∈ vs, v.length = n) → (vs.foldr vadd (zeros n)).length = n := by
  intro vs
  induction vs with
  | nil => intro _; simp [zeros_length]
  | cons v vs ih =>
      intro h
      have h1 : v.length = n := h v (by simp)
      have h2 := ih fun w hw => h w (by simp [hw])
      simp only [List.foldr_cons]
      rw [vadd_length (by rw [h1, h2]), h1]

lemma foldr_vadd_getD {n : ℕ} : ∀ (vs : List (List ℝ)),
    (∀ v ∈ vs, v.length = n) → ∀ i : ℕ,
    (vs.foldr vadd (zeros n)).getD i 0 = (vs.map fun v => v.getD i 0).sum := by
  intro vs
  induction vs with
  | nil => intro _ i; rw [List.foldr_nil, List.map_nil, List.sum_nil, zeros_getD]
  | cons v vs ih =>
      intro h i
      have h1 : v.length = n := h v (by simp)
      have h2 := foldr_vadd_length vs fun w hw => h w (by simp [hw])
      simp only [List.foldr_cons, List.map_cons, List.sum_cons]
      rw [vadd_getD (by rw [h1, h2]) i, ih (fun w hw => h w (by simp [hw])) i]

lemma dot_scale_right : ∀ (u : List ℝ) (c : ℝ) (v : List ℝ),
    dot u (scale c v) = c * dot u v := by
  intro u
  induction u with
  | nil => intro c v; simp [dot, scale]
  | cons a u ih =>
      intro c v
      match v with
      | [] => simp [dot, scale]
      | b :: v =>
          simp only [scale, List.map_cons, dot, List.zipWith_cons_cons,
            List.sum_cons] at *
          rw [ih c v]
          ring

lemma map_sum_getD {α : Type} (d : α) : ∀ (l : List α) (f : α → ℝ),
    (l.map f).sum = ∑ i ∈ Finset.range l.length, f (l.getD i d) := by
  intro l
  induction l with
  | nil => intro f; simp
  | cons a l ih =>
      intro f
      rw [List.map_cons, List.sum_cons, List.length_cons, Finset.sum_range_succ',
        ih f]
      simp [add_comm]

lemma list_len_one {α : Type} {l : List α} (h : l.length = 1) : ∃ a, l = [a] := by
  match l with
  | [a] => exact ⟨a, rfl⟩

lemma list_len_four {α : Type} {l : List α} (h : l.length = 4) :
    ∃ a b c d, l = [a, b, c, d] := by
  match l with
  | [a, b, c, d] => exact ⟨a, b, c, d, rfl⟩

lemma entry_row_out {W : List (List ℝ)} {i : ℕ} (j : ℕ) (h : W.length ≤ i) :
    entry W i j = 0 := by
  unfold entry
  rw [List.getD_eq_default _ _ h]
  simp

lemma entry_col_out {W : List (List ℝ)} {i j : ℕ}
    (h : (W.getD i []).length ≤ j) : entry W i j = 0 :=
  List.getD_eq_default _ _ h

lemma laplacian_length (W : List (List ℝ)) : (laplacian W).length = W.length := by
  simp [laplacian]

lemma laplacian_row {W : List (List ℝ)} {i : ℕ} (h : i < W.length) :
    (laplacian W).getD i [] =
      (List.range W.length).map fun j =>
        (if i = j then degree W i else 0) - entry W i j := by
  unfold laplacian
  exact getD_map_range _ _ h

lemma entry_laplacian {W : List (List ℝ)} {i j : ℕ} (hi : i < W.length)
    (hj : j < W.length) :
    entry (laplacian W) i j = (if i = j then degree W i else 0) - entry W i j := by
  unfold entry
  rw [laplacian_row hi]
  exact getD_map_range _ _ hj

lemma degree_eq_sum {W : List (List ℝ)} (hsq : ∀ row ∈ W, row.length = W.length)
    {i : ℕ} (hi : i < W.length) :
    degree W i = ∑ j ∈ Finset.range W.length, entry W i j := by
  have hrow : W.getD i [] = W[i] := List.getD_eq_getElem _ _ hi
  have hlen : (W.getD i []).length = W.length := by
    rw [hrow]; exact hsq _ (List.getElem_mem hi)
  unfold degree entry
  rw [sum_eq_sum_getD, hlen]

/-! ## Claims -/

/-- C4: for every valid graph, the Laplacian equals `D - W` entrywise,
where `D[i][i]` is the sum of row `i` of `W`, and every row of the
Laplacian sums to zero. -/
theorem laplacian_eq_deg_sub_weight (W : List (List ℝ)) (h : ValidGraph W) :
    (∀ i j, i < W.length → j < W.length →
      entry (laplacian W) i j =
        (if i = j then degree W i else 0) - entry W i j) ∧
    (∀ row ∈ laplacian W, row.sum = 0) := by
  obtain ⟨hsq, _, _⟩ := h
  constructor
  · intro i j hi hj
    exact entry_laplacian hi hj
  · intro row hrow
    unfold laplacian at hrow
    rw [List.mem_map] at hrow
    obtain ⟨i, hi, hrow⟩ := hrow
    rw [List.mem_range] at hi
    rw [← hrow, map_range_sum, Finset.sum_sub_distrib]
    have h1 : ∑ j ∈ Finset.range W.length,
        (if i = j then degree W i else 0) = degree W i := by
      rw [Finset.sum_ite_eq]
      simp [hi]
    rw [h1, ← degree_eq_sum hsq hi, sub_self]

lemma lap_single : laplacian [[(0 : ℝ)]] = [[0]] := by
  norm_num [laplacian, degree, entry, List.range_succ]

lemma valid_single : ValidGraph [[(0 : ℝ)]] := by
  refine ⟨?_, ?_, ?_⟩
  · intro row hrow
    simp at hrow
    subst hrow
    simp
  · intro i j hi hj
    simp at hi hj
    subst hi; subst hj
    rfl
  · intro i j
    rcases i with _ | i <;> rcases j with _ | j <;> simp [entry]

/-- Witness for C4 at the single-vertex graph `[[0]]`: its Laplacian's
only row `[0]` sums to zero. -/
theorem laplacian_eq_deg_sub_weight_witness :
    ValidGraph [[(0 : ℝ)]] ∧ ([(0 : ℝ)] : List ℝ).sum = 0 := by
  refine ⟨valid_single, ?_⟩
  refine (laplacian_eq_deg_sub_weight [[0]] valid_single).2 [0] ?_
  rw [lap_single]
  simp

lemma mulVecL_length (M : List (List ℝ)) (v : List ℝ) :
    (mulVecL M v).length = M.length := by
  simp [mulVecL]

lemma mulVecL_getD {M : List (List ℝ)} {i : ℕ} (v : List ℝ) (h : i < M.length) :
    (mulVecL M v).getD i 0 = dot (M.getD i []) v := by
  unfold mulVecL
  rw [List.getD_eq_getElem _ _ (by simpa using h), List.getD_eq_getElem _ _ h]
  simp

lemma dot_laprow {W : List (List ℝ)} {u : List ℝ} (hu : u.length = W.length)
    {i : ℕ} (hi : i < W.length) :
    dot ((laplacian W).getD i []) u =
      ∑ j ∈ Finset.range W.length,
        ((if i = j then degree W i else 0) - entry W i j) * u.getD j 0 := by
  rw [laplacian_row hi]
  rw [dot_eq_sum (by simp) hu]
  refine Finset.sum_congr rfl fun j hj => ?_
  rw [Finset.mem_range] at hj
  rw [getD_map_range _ _ hj]

lemma quadform_nonneg {W : List (List ℝ)} (hW : ValidGraph W) {u : List ℝ}
    (hu : u.length = W.length) : 0 ≤ dot u (mulVecL (laplacian W) u) := by
  obtain ⟨hsq, hsym, hnn⟩ := hW
  set N := W.length with hN
  set e : ℕ → ℝ := fun j => u.getD j 0 with he
  have hmain : dot u (mulVecL (laplacian W) u) =
      (∑ i ∈ Finset.range N, ∑ j ∈ Finset.range N, entry W i j * e i * e i) -
      (∑ i ∈ Finset.range N, ∑ j ∈ Finset.range N, entry W i j * e i * e j) := by
    rw [dot_eq_sum hu (by rw [mulVecL_length, laplacian_length])]
    have hstep : ∀ i ∈ Finset.range N,
        e i * (mulVecL (laplacian W) u).getD i 0 =
          (∑ j ∈ Finset.range N, entry W i j * e i * e i) -
          (∑ j ∈ Finset.range N, entry W i j * e i * e j) := by
      intro i hi
      rw [Finset.mem_range] at hi
      rw [mulVecL_getD u (by rw [laplacian_length]; exact hi), dot_laprow hu hi]
      have hsplit : ∑ j ∈ Finset.range N,
          ((if i = j then degree W i else 0) - entry W i j) * e j =
            degree W i * e i - ∑ j ∈ Finset.range N, entry W i j * e j := by
        rw [Finset.sum_congr rfl (fun j _ => sub_mul _ _ (e j)),
          Finset.sum_sub_distrib]
        congr 1
        have : ∀ j ∈ Finset.range N,
            (if i = j then degree W i else 0) * e j =
              (if i = j then degree W i * e j else 0) := by
          intro j _; split <;> simp
        rw [Finset.sum_congr rfl this, Finset.sum_ite_eq]
        simp [hi]
      rw [hsplit, degree_eq_sum hsq hi, Finset.sum_mul, mul_sub, Finset.mul_sum,
        Finset.mul_sum]
      congr 1
      · refine Finset.sum_congr rfl fun j _ => by ring
      · refine Finset.sum_congr rfl fun j _ => by ring
    rw [Finset.sum_congr rfl hstep, Finset.sum_sub_distrib]
  have hswap : ∑ i ∈ Finset.range N, ∑ j ∈ Finset.range N,
      entry W i j * e j * e j =
      ∑ i ∈ Finset.range N, ∑ j ∈ Finset.range N, entry W i j * e i * e i := by
    rw [Finset.sum_comm]
    refine Finset.sum_congr rfl fun j hj => Finset.sum_congr rfl fun i hi => ?_
    rw [Finset.mem_range] at hi hj
    rw [hsym j i hj hi]
  have hS : 0 ≤ ∑ i ∈ Finset.range N, ∑ j ∈ Finset.range N,
      entry W i j * (e i - e j) ^ 2 := by
    refine Finset.sum_nonneg fun i _ => Finset.sum_nonneg fun j _ => ?_
    exact mul_nonneg (hnn i j) (sq_nonneg _)
  have hexpand : ∑ i ∈ Finset.range N, ∑ j ∈ Finset.range N,
      entry W i j * (e i - e j) ^ 2 =
      (∑ i ∈ Finset.range N, ∑ j ∈ Finset.range N, entry W i j * e i * e i) -
      2 * (∑ i ∈ Finset.range N, ∑ j ∈ Finset.range N, entry W i j * e i * e j) +
      (∑ i ∈ Finset.range N, ∑ j ∈ Finset.range N, entry W i j * e j * e j) := by
    have hterm : ∀ i ∈ Finset.range N, ∀ j ∈ Finset.range N,
        entry W i j * (e i - e j) ^ 2 =
          entry W i j * e i * e i - 2 * (entry W i j * e i * e j) +
            entry W i j * e j * e j := by
      intro i _ j _; ring
    have h1 : ∑ i ∈ Finset.range N, ∑ j ∈ Finset.range N,
        entry W i j * (e i - e j) ^ 2 =
        ∑ i ∈ Finset.range N,
          ((∑ j ∈ Finset.range N, entry W i j * e i * e i) -
            (∑ j ∈ Finset.range N, 2 * (entry W i j * e i * e j)) +
            (∑ j ∈ Finset.range N, entry W i j * e j * e j)) := by
      refine Finset.sum_congr rfl fun i hi => ?_
      rw [Finset.sum_congr rfl (hterm i hi), Finset.sum_add_distrib,
        Finset.sum_sub_distrib]
    rw [h1, Finset.sum_add_distrib, Finset.sum_sub_distrib]
    congr 1
    congr 1
    rw [Finset.mul_sum]
    refine Finset.sum_congr rfl fun i _ => ?_
    rw [Finset.mul_sum]
  rw [hmain]
  rw [hswap] at hexpand
  linarith [hS, hexpand]

lemma build_ok {W : List (List ℝ)} {b : SpectralBasis}
    (h : Build W (Except.ok b)) :
    ValidGraph W ∧ IsBasisFor (laplacian W) b := by
  rcases h with ⟨_, habs⟩ | ⟨hW, ⟨b', hb', hbas⟩ | habs⟩
  · exact absurd habs (by simp)
  · rw [Except.ok.injEq] at hb'
    exact ⟨hW, hb' ▸ hbas⟩
  · exact absurd habs (by simp)

lemma unit_norm {b : SpectralBasis} (hb : ∀ i j : Fin b.pairs.length,
    dot (b.pairs.get i).2 (b.pairs.get j).2 = if i = j then 1 else 0)
    {p : ℝ × List ℝ} (hp : p ∈ b.pairs) : dot p.2 p.2 = 1 := by
  rw [List.mem_iff_get] at hp
  obtain ⟨k, hk⟩ := hp
  have := hb k k
  rw [hk] at this
  simpa using this

lemma eigenvalue_nonneg {W : List (List ℝ)} {b : SpectralBasis}
    (hW : ValidGraph W) (hb : IsBasisFor (laplacian W) b)
    {p : ℝ × List ℝ} (hp : p ∈ b.pairs) : 0 ≤ p.1 := by
  have hlen : p.2.length = W.length := by
    rw [hb.vec_len p hp, laplacian_length]
  have hq := quadform_nonneg hW hlen
  have heig := hb.eigen p hp
  rw [heig, dot_scale_right, unit_norm hb.ortho hp, mul_one] at hq
  exact hq

lemma eps_pos : 0 < eps := by norm_num [eps]

/-- C5: for every valid graph, every eigenvalue in a basis returned by
`SpectralBasisBuilder.build` is at least `-eps` (positive
semi-definiteness), and the eigenvalue list is sorted ascending. -/
theorem eigenvalues_nonneg_sorted (W : List (List ℝ)) (b : SpectralBasis)
    (hb : Build W (Except.ok b)) :
    (∀ lam ∈ b.eigenvalues, -eps ≤ lam) ∧ b.eigenvalues.Sorted (· ≤ ·) := by
  obtain ⟨hW, hbas⟩ := build_ok hb
  refine ⟨?_, hbas.sorted⟩
  intro lam hlam
  unfold SpectralBasis.eigenvalues at hlam
  rw [List.mem_map] at hlam
  obtain ⟨p, hp, hfst⟩ := hlam
  have := eigenvalue_nonneg hW hbas hp
  rw [hfst] at this
  linarith [eps_pos]

/-- The spectral basis of the single-vertex graph: one pair, eigenvalue 0
with eigenvector `[1]`. -/
def singleBasis : SpectralBasis := ⟨[(0, [1])]⟩

lemma single_isbasis : IsBasisFor [[(0 : ℝ)]] singleBasis := by
  refine ⟨by simp [singleBasis], ?_, ?_, ?_, ?_⟩
  · intro p hp
    simp [singleBasis] at hp
    subst hp
    simp
  · intro p hp
    simp [singleBasis] at hp
    subst hp
    norm_num [mulVecL, dot, scale]
  · intro i j
    fin_cases i; fin_cases j; norm_num [singleBasis, dot]
  · simp [singleBasis, SpectralBasis.eigenvalues]

lemma single_build : Build [[(0 : ℝ)]] (Except.ok singleBasis) :=
  Or.inr ⟨valid_single, Or.inl ⟨singleBasis, rfl, by rw [lap_single]; exact single_isbasis⟩⟩

/-- Witness for C5 at the single-vertex graph: its sole eigenvalue 0 is at
least `-eps`. -/
theorem eigenvalues_nonneg_sorted_witness :
    Build [[(0 : ℝ)]] (Except.ok singleBasis) ∧ -eps ≤ (0 : ℝ) := by
  refine ⟨single_build, ?_⟩
  refine (eigenvalues_nonneg_sorted [[0]] singleBasis single_build).1 0 ?_
  simp [singleBasis, SpectralBasis.eigenvalues]

/-- C6: the eigenvectors of every basis returned by
`SpectralBasisBuilder.build` are pairwise orthonormal within the tolerance
`eps`: inner products differ from the Kronecker delta by at most `eps`. -/
theorem basis_orthonormal_eps (W : List (List ℝ)) (b : SpectralBasis)
    (hb : Build W (Except.ok b)) (i j : Fin b.pairs.length) :
    |dot (b.pairs.get i).2 (b.pairs.get j).2 - if i = j then 1 else 0| ≤ eps := by
  obtain ⟨_, hbas⟩ := build_ok hb
  rw [hbas.ortho i j, sub_self, abs_zero]
  exact le_of_lt eps_pos

/-- Witness for C6 at the single-vertex graph: the single eigenvector
`[1]` has norm within `eps` of 1. -/
theorem basis_orthonormal_eps_witness :
    Build [[(0 : ℝ)]] (Except.ok singleBasis) ∧
      |dot [(1 : ℝ)] [(1 : ℝ)] - 1| ≤ eps := by
  refine ⟨single_build, ?_⟩
  have h := basis_orthonormal_eps [[0]] singleBasis single_build
    ⟨0, by simp [singleBasis]⟩ ⟨0, by simp [singleBasis]⟩
  simpa [singleBasis] using h

/-- C7: `SpectralBasisBuilder.build` fails with `InvalidGraphError`
exactly when the weight matrix is not a valid graph (not square, not
symmetric, or with a negative entry), and on failure no basis is
returned. -/
theorem build_invalid_iff (W : List (List ℝ))
    (r : Except BuildError SpectralBasis) (h : Build W r) :
    (r = Except.error BuildError.invalidGraphError ↔ ¬ ValidGraph W) ∧
    (∀ e, r = Except.error e → ∀ b, r ≠ Except.ok b) := by
  constructor
  · constructor
    · intro hr
      rcases h with ⟨hnv, _⟩ | ⟨hv, hrest⟩
      · exact hnv
      · rcases hrest with ⟨b, hb, _⟩ | hb
        · rw [hb] at hr; simp at hr
        · rw [hb] at hr; simp at hr
    · intro hnv
      rcases h with ⟨_, hr⟩ | ⟨hv, _⟩
      · exact hr
      · exact absurd hv hnv
  · intro e he b
    rw [he]
    simp

lemma notvalid_rect : ¬ ValidGraph [[(0 : ℝ), 1]] := by
  rintro ⟨hsq, _, _⟩
  have := hsq [0, 1] (by simp)
  simp at this

/-- Witness for C7 at the non-square matrix `[[0, 1]]`: build fails with
`InvalidGraphError` and indeed the matrix is not a valid graph. -/
theorem build_invalid_iff_witness :
    Build [[(0 : ℝ), 1]] (Except.error BuildError.invalidGraphError) ∧
      ¬ ValidGraph [[(0 : ℝ), 1]] := by
  have hB : Build [[(0 : ℝ), 1]] (Except.error BuildError.invalidGraphError) :=
    Or.inl ⟨notvalid_rect, rfl⟩
  exact ⟨hB, (build_invalid_iff _ _ hB).1.mp rfl⟩

/-- C8: `SpectralFilter.apply` fails with `DimensionMismatchError` exactly
when the signal length differs from the basis dimension; on matching
lengths it returns a signal of length `N`. -/
theorem apply_dim_check (b : SpectralBasis) (s : List ℝ) (fn : ℝ → ℝ)
    (hwf : ∀ p ∈ b.pairs, p.2.length = b.dim) :
    (SpectralFilter.apply b s fn =
        Except.error FilterError.dimensionMismatchError ↔ s.length ≠ b.dim) ∧
    (s.length = b.dim → ∃ t, SpectralFilter.apply b s fn = Except.ok t ∧
      t.length = b.dim) := by
  constructor
  · constructor
    · intro h hlen
      unfold SpectralFilter.apply at h
      rw [if_pos hlen] at h
      simp at h
    · intro hlen
      unfold SpectralFilter.apply
      rw [if_neg hlen]
  · intro hlen
    refine ⟨(b.pairs.map fun p =>
      scale (fn p.1 * dot p.2 s) p.2).foldr vadd (zeros b.dim), ?_, ?_⟩
    · unfold SpectralFilter.apply
      rw [if_pos hlen]
    · refine foldr_vadd_length _ ?_
      intro v hv
      rw [List.mem_map] at hv
      obtain ⟨p, hp, hv⟩ := hv
      rw [← hv, scale_length]
      exact hwf p hp

lemma single_wf : ∀ p ∈ singleBasis.pairs, p.2.length = singleBasis.dim := by
  intro p hp
  simp [singleBasis] at hp
  subst hp
  simp [singleBasis, SpectralBasis.dim]

/-- Witness for C8: applying the single-vertex basis to a length-2 signal
fails with `DimensionMismatchError`. -/
theorem apply_dim_check_witness :
    (∀ p ∈ singleBasis.pairs, p.2.length = singleBasis.dim) ∧
      SpectralFilter.apply singleBasis [(5 : ℝ), 6] (fun _ => 1) =
        Except.error FilterError.dimensionMismatchError := by
  refine ⟨single_wf, ?_⟩
  refine (apply_dim_check singleBasis [5, 6] (fun _ => 1) single_wf).1.mpr ?_
  simp [singleBasis, SpectralBasis.dim]

/-- C9: `SpectralFilter.apply` is deterministic and pure: equal bases,
signals and pointwise-equal filter functions give equal results; likewise
the `Build` relation depends only on the weight matrix. -/
theorem apply_deterministic (b1 b2 : SpectralBasis) (s1 s2 : List ℝ)
    (fn1 fn2 : ℝ → ℝ) (hb : b1 = b2) (hs : s1 = s2)
    (hf : ∀ x, fn1 x = fn2 x) :
    SpectralFilter.apply b1 s1 fn1 = SpectralFilter.apply b2 s2 fn2 ∧
    ∀ (W1 W2 : List (List ℝ)) (r : Except BuildError SpectralBasis),
      W1 = W2 → (Build W1 r ↔ Build W2 r) := by
  subst hb
  subst hs
  have hfe : fn1 = fn2 := funext hf
  subst hfe
  exact ⟨rfl, fun W1 W2 r h => by rw [h]⟩

/-- Witness for C9: two syntactically different but extensionally equal
invocations agree on the single-vertex basis. -/
theorem apply_deterministic_witness :
    SpectralFilter.apply singleBasis [1] (fun x => x + 0) =
      SpectralFilter.apply singleBasis [1] (fun x => x) ∧
    (Build [[(0 : ℝ)]] (Except.ok singleBasis) ↔
      Build [[(0 : ℝ)]] (Except.ok singleBasis)) := by
  have h := apply_deterministic singleBasis singleBasis [1] [1]
    (fun x => x + 0) (fun x => x) rfl rfl (fun x => by ring)
  exact ⟨h.1, h.2 [[0]] [[0]] (Except.ok singleBasis) rfl⟩

/-- The eigenvector matrix of a basis: row `k` is the `k`-th eigenvector. -/
def basisMatrix (b : SpectralBasis) :
    Matrix (Fin b.pairs.length) (Fin b.pairs.length) ℝ :=
  Matrix.of fun k i => (b.pairs.get k).2.getD i.1 0

lemma pairs_get_mem (b : SpectralBasis) (k : Fin b.pairs.length) :
    b.pairs.get k ∈ b.pairs := by
  rw [List.get_eq_getElem]
  exact List.getElem_mem k.isLt

lemma vec_len_dim {L : List (List ℝ)} {b : SpectralBasis} (hb : IsBasisFor L b) :
    ∀ p ∈ b.pairs, p.2.length = b.pairs.length := by
  intro p hp
  rw [hb.vec_len p hp]
  exact hb.dim_eq.symm

lemma basisMatrix_mul_transpose {L : List (List ℝ)} {b : SpectralBasis}
    (hb : IsBasisFor L b) :
    basisMatrix b * (basisMatrix b).transpose = 1 := by
  ext k l
  rw [Matrix.mul_apply, Matrix.one_apply]
  calc ∑ j : Fin b.pairs.length,
        basisMatrix b k j * (basisMatrix b).transpose j l
      = ∑ j : Fin b.pairs.length,
          (b.pairs.get k).2.getD j.1 0 * (b.pairs.get l).2.getD j.1 0 := by
        refine Finset.sum_congr rfl fun j _ => ?_
        rw [Matrix.transpose_apply]
        rfl
    _ = ∑ j ∈ Finset.range b.pairs.length,
          (b.pairs.get k).2.getD j 0 * (b.pairs.get l).2.getD j 0 :=
        Fin.sum_univ_eq_sum_range
          (fun j => (b.pairs.get k).2.getD j 0 * (b.pairs.get l).2.getD j 0)
          b.pairs.length
    _ = dot (b.pairs.get k).2 (b.pairs.get l).2 :=
        (dot_eq_sum (vec_len_dim hb _ (pairs_get_mem b k))
          (vec_len_dim hb _ (pairs_get_mem b l))).symm
    _ = if k = l then 1 else 0 := hb.ortho k l

lemma col_orthonormal {L : List (List ℝ)} {b : SpectralBasis}
    (hb : IsBasisFor L b) {i j : ℕ} (hi : i < b.pairs.length)
    (hj : j < b.pairs.length) :
    ∑ k : Fin b.pairs.length,
        (b.pairs.get k).2.getD i 0 * (b.pairs.get k).2.getD j 0 =
      if i = j then 1 else 0 := by
  have h2 := Matrix.mul_eq_one_comm.mp (basisMatrix_mul_transpose hb)
  have h3 := congrFun (congrFun h2 ⟨i, hi⟩) ⟨j, hj⟩
  rw [Matrix.mul_apply, Matrix.one_apply] at h3
  simpa [basisMatrix, Matrix.transpose_apply, Fin.mk.injEq] using h3

lemma map_sum_get {α : Type} (l : List α) (f : α → ℝ) :
    (l.map f).sum = ∑ k : Fin l.length, f (l.get k) := by
  match l with
  | [] => simp
  | a :: t =>
      rw [map_sum_getD a (a :: t) f,
        ← Fin.sum_univ_eq_sum_range (fun m => f ((a :: t).getD m a))]
      refine Finset.sum_congr rfl fun k _ => ?_
      congr 1
      rw [List.getD_eq_getElem _ _ k.isLt]
      rfl

lemma synthesis_analysis {L : List (List ℝ)} {b : SpectralBasis}
    (hb : IsBasisFor L b) {s : List ℝ} (hs : s.length = b.dim)
    (fn : ℝ → ℝ) (hfn : ∀ x, fn x = 1) :
    (b.pairs.map fun p => scale (fn p.1 * dot p.2 s) p.2).foldr vadd
      (zeros b.dim) = s := by
  have hveclen := vec_len_dim hb
  have hmaplen : ∀ v ∈ b.pairs.map fun p => scale (fn p.1 * dot p.2 s) p.2,
      v.length = b.dim := by
    intro v hv
    rw [List.mem_map] at hv
    obtain ⟨p, hp, hv⟩ := hv
    rw [← hv, scale_length]
    exact hveclen p hp
  refine List.ext_getElem ?_ ?_
  · rw [foldr_vadd_length _ hmaplen, hs]
  · intro i h1 h2
    have hi : i < b.pairs.length := by
      rw [foldr_vadd_length _ hmaplen] at h1
      exact h1
    rw [← List.getD_eq_getElem _ 0 h1, ← List.getD_eq_getElem _ 0 h2]
    rw [foldr_vadd_getD _ hmaplen i, List.map_map, map_sum_get]
    have hform : ∀ k : Fin b.pairs.length,
        ((fun v => v.getD i 0) ∘ fun p => scale (fn p.1 * dot p.2 s) p.2)
          (b.pairs.get k) =
        ∑ j ∈ Finset.range b.pairs.length,
          (b.pairs.get k).2.getD j 0 * s.getD j 0 * (b.pairs.get k).2.getD i 0 := by
      intro k
      simp only [Function.comp]
      rw [scale_getD, hfn, one_mul,
        dot_eq_sum (hveclen _ (pairs_get_mem b k)) hs, Finset.sum_mul]
    rw [Finset.sum_congr rfl fun k _ => hform k, Finset.sum_comm]
    have hcol : ∀ j ∈ Finset.range b.pairs.length,
        ∑ k : Fin b.pairs.length,
            (b.pairs.get k).2.getD j 0 * s.getD j 0 * (b.pairs.get k).2.getD i 0 =
          s.getD j 0 * if i = j then 1 else 0 := by
      intro j hj
      rw [Finset.mem_range] at hj
      have hterm : ∀ k : Fin b.pairs.length,
          (b.pairs.get k).2.getD j 0 * s.getD j 0 * (b.pairs.get k).2.getD i 0 =
            s.getD j 0 * ((b.pairs.get k).2.getD i 0 * (b.pairs.get k).2.getD j 0) := by
        intro k; ring
      rw [Finset.sum_congr rfl fun k _ => hterm k, ← Finset.mul_sum,
        col_orthonormal hb hi hj]
    rw [Finset.sum_congr rfl hcol]
    have hite : ∀ j ∈ Finset.range b.pairs.length,
        s.getD j 0 * (if i = j then 1 else 0) =
          if i = j then s.getD j 0 else 0 := by
      intro j _
      split
      · rw [mul_one]
      · rw [mul_zero]
    rw [Finset.sum_congr rfl hite, Finset.sum_ite_eq,
      if_pos (Finset.mem_range.mpr hi)]

/-- C2: for every basis built from a valid graph and every signal of
matching length, filtering with the constant identity gain returns the
input signal exactly, and filtering an already-filtered signal returns it
unchanged. -/
theorem identity_filter_roundtrip (W : List (List ℝ)) (b : SpectralBasis)
    (s : List ℝ) (hb : Build W (Except.ok b)) (hs : s.length = b.dim) :
    SpectralFilter.apply b s (fun _ => 1) = Except.ok s ∧
    ∀ t, SpectralFilter.apply b s (fun _ => 1) = Except.ok t →
      SpectralFilter.apply b t (fun _ => 1) = Except.ok t := by
  obtain ⟨hW, hbas⟩ := build_ok hb
  have h1 : SpectralFilter.apply b s (fun _ => 1) = Except.ok s := by
    unfold SpectralFilter.apply
    rw [if_pos hs]
    rw [synthesis_analysis hbas hs (fun _ => 1) fun x => rfl]
  refine ⟨h1, fun t ht => ?_⟩
  rw [h1, Except.ok.injEq] at ht
  subst ht
  exact h1

/-- Witness for C2: the identity gain round-trips the signal `[3]` on the
single-vertex basis. -/
theorem identity_filter_roundtrip_witness :
    Build [[(0 : ℝ)]] (Except.ok singleBasis) ∧
      SpectralFilter.apply singleBasis [3] (fun _ => 1) = Except.ok [3] := by
  refine ⟨single_build, ?_⟩
  exact (identity_filter_roundtrip [[0]] singleBasis [3] single_build
    (by simp [singleBasis, SpectralBasis.dim])).1

/-- C3 counterexample: on the single-vertex graph, the total filter
function that is constantly 0 does not leave the signal `[1]` unchanged:
it returns `[0]`. -/
theorem single_vertex_zero_filter :
    Build [[(0 : ℝ)]] (Except.ok singleBasis) ∧
    SpectralFilter.apply singleBasis [1] (fun _ => 0) = Except.ok [0] ∧
    ([(0 : ℝ)] : List ℝ) ≠ [1] := by
  refine ⟨single_build, ?_, by norm_num⟩
  simp [SpectralFilter.apply, singleBasis, SpectralBasis.dim, dot, scale,
    vadd, zeros]

/-- C3 (amended): the single-vertex graph `[[0]]` yields the Laplacian
`[[0]]` and one eigenvalue 0, and every filter function with gain 1 at
eigenvalue 0 leaves every length-1 signal unchanged. -/
theorem single_vertex_basis (b : SpectralBasis)
    (hb : Build [[(0 : ℝ)]] (Except.ok b)) :
    laplacian [[(0 : ℝ)]] = [[0]] ∧
    b.eigenvalues = [0] ∧
    ∀ (s : List ℝ) (fn : ℝ → ℝ), s.length = 1 → fn 0 = 1 →
      SpectralFilter.apply b s fn = Except.ok s := by
  obtain ⟨hW, hbas⟩ := build_ok hb
  rw [lap_single] at hbas
  have hlen1 : b.pairs.length = 1 := by rw [hbas.dim_eq]; rfl
  obtain ⟨p, hp⟩ := list_len_one hlen1
  have hpmem : p ∈ b.pairs := by rw [hp]; simp
  have hvlen : p.2.length = 1 := by rw [hbas.vec_len p hpmem]; rfl
  obtain ⟨a, ha⟩ := list_len_one hvlen
  have hnorm : a * a = 1 := by
    have h := unit_norm hbas.ortho hpmem
    rw [ha] at h
    simpa [dot] using h
  have heig := hbas.eigen p hpmem
  rw [ha] at heig
  have hane : a ≠ 0 := by
    intro h0
    rw [h0] at hnorm
    norm_num at hnorm
  have hlam : p.1 = 0 := by
    have h := heig
    simp [mulVecL, dot, scale] at h
    rcases h with h | h
    · exact h
    · exact absurd h hane
  have heigvals : b.eigenvalues = [0] := by
    simp [SpectralBasis.eigenvalues, hp, hlam]
  refine ⟨lap_single, heigvals, ?_⟩
  intro s fn hslen hfn0
  obtain ⟨s0, hs0⟩ := list_len_one hslen
  subst hs0
  have hdim1 : b.dim = 1 := hlen1
  have hdim : ([s0] : List ℝ).length = b.dim := by rw [hdim1]; rfl
  unfold SpectralFilter.apply
  rw [if_pos hdim]
  congr 1
  rw [hp, hdim1]
  have key : fn p.1 * dot [a] [s0] * a + 0 = s0 := by
    rw [hlam, hfn0]
    have hd : dot [a] [s0] = a * s0 := by simp [dot]
    rw [hd]
    linear_combination s0 * hnorm
  rw [List.map_cons, List.map_nil, List.foldr_cons, List.foldr_nil]
  have hz1 : zeros 1 = [0] := rfl
  rw [hz1, ha]
  show vadd (scale (fn p.1 * dot [a] [s0]) [a]) [0] = [s0]
  unfold vadd scale
  simp only [List.map_cons, List.map_nil, List.zipWith_cons_cons,
    List.zipWith_nil_right]
  rw [key]

/-- Witness for C3 (amended): on the single-vertex graph, the affine
filter function `x + 1`, which has gain 1 at eigenvalue 0, leaves the
signal `[7]` unchanged. -/
theorem single_vertex_basis_witness :
    Build [[(0 : ℝ)]] (Except.ok singleBasis) ∧
      SpectralFilter.apply singleBasis [7] (fun x => x + 1) = Except.ok [7] := by
  refine ⟨single_build, ?_⟩
  exact (single_vertex_basis singleBasis single_build).2.2 [7]
    (fun x => x + 1) (by simp) (by norm_num)

lemma lap_cycle4 : laplacian cycle4 =
    [[2, -1, 0, -1], [-1, 2, -1, 0], [0, -1, 2, -1], [-1, 0, -1, 2]] := by
  norm_num [laplacian, cycle4, degree, entry, List.range_succ]

lemma valid_cycle4 : ValidGraph cycle4 := by
  refine ⟨?_, ?_, ?_⟩
  · intro row hrow
    simp only [cycle4, List.mem_cons, List.not_mem_nil, or_false] at hrow
    rcases hrow with h | h | h | h <;> subst h <;> simp [cycle4]
  · intro i j hi hj
    simp only [cycle4, List.length_cons, List.length_nil] at hi hj
    interval_cases i <;> interval_cases j <;> norm_num [entry, cycle4]
  · intro i j
    by_cases hi : i < 4
    · by_cases hj : j < 4
      · interval_cases i <;> interval_cases j <;> norm_num [entry, cycle4]
      · rw [entry_col_out ?_]
        have h4 : 4 ≤ j := Nat.le_of_not_lt hj
        interval_cases i <;> simpa [cycle4] using h4
    · rw [entry_row_out j ?_]
      simpa [cycle4] using Nat.le_of_not_lt hi

lemma lam_cases {lam a b c d : ℝ}
    (f1 : lam * a = 2 * a - b - d) (f2 : lam * b = -a + 2 * b - c)
    (f3 : lam * c = -b + 2 * c - d) (f4 : lam * d = -a - c + 2 * d)
    (hN : a * a + b * b + c * c + d * d = 1) :
    lam = 0 ∨ lam = 2 ∨ lam = 4 := by
  by_cases h0 : lam = 0
  · exact Or.inl h0
  by_cases h2 : lam = 2
  · exact Or.inr (Or.inl h2)
  by_cases h4 : lam = 4
  · exact Or.inr (Or.inr h4)
  exfalso
  have hsum : lam * (a + b + c + d) = 0 := by linear_combination f1 + f2 + f3 + f4
  have halt : (lam - 4) * (a - b + c - d) = 0 := by
    linear_combination f1 - f2 + f3 - f4
  have h13 : (lam - 2) * (a - c) = 0 := by linear_combination f1 - f3
  have h24 : (lam - 2) * (b - d) = 0 := by linear_combination f2 - f4
  have hac : a = c := by
    rcases mul_eq_zero.mp h13 with h | h
    · exact absurd (by linarith) h2
    · linarith
  have hbd : b = d := by
    rcases mul_eq_zero.mp h24 with h | h
    · exact absurd (by linarith) h2
    · linarith
  have halt0 : a - b + c - d = 0 := by
    rcases mul_eq_zero.mp halt with h | h
    · exact absurd (by linarith) h4
    · exact h
  have hsum0 : a + b + c + d = 0 := by
    rcases mul_eq_zero.mp hsum with h | h
    · exact absurd h h0
    · exact h
  have ha0 : a = 0 := by linarith
  have hb0 : b = 0 := by linarith
  have hc0 : c = 0 := by linarith
  have hd0 : d = 0 := by linarith
  rw [ha0, hb0, hc0, hd0] at hN
  norm_num at hN

lemma zero_shape {lam a b c d : ℝ}
    (f1 : lam * a = 2 * a - b - d) (f2 : lam * b = -a + 2 * b - c)
    (f3 : lam * c = -b + 2 * c - d) (f4 : lam * d = -a - c + 2 * d)
    (hN : a * a + b * b + c * c + d * d = 1) (h0 : lam = 0) :
    b = a ∧ c = a ∧ d = a ∧ 4 * (a * a) = 1 := by
  subst h0
  have hac : a = c := by nlinarith [f1, f3]
  have hbd : b = d := by nlinarith [f2, f4]
  have hab : a = b := by nlinarith [f1, f2, f3, f4]
  refine ⟨hab.symm, hac.symm, ?_, ?_⟩
  · rw [← hbd]; exact hab.symm
  · linear_combination hN + 2 * (a + b) * hab + (a + c) * hac + (b + d) * hbd


lemma ortho_pairwise {b : SpectralBasis}
    (h : ∀ i j : Fin b.pairs.length,
      dot (b.pairs.get i).2 (b.pairs.get j).2 = if i = j then 1 else 0) :
    b.pairs.Pairwise fun p q => dot p.2 q.2 = 0 := by
  rw [List.pairwise_iff_get]
  intro i j hij
  have hne : i ≠ j := Fin.ne_of_lt hij
  have hd := h i j
  rw [if_neg hne] at hd
  exact hd

lemma col_ortho_four {a0 b0 c0 d0 a1 b1 c1 d1 a2 b2 c2 d2 a3 b3 c3 d3 : ℝ}
    (N0 : a0*a0 + b0*b0 + c0*c0 + d0*d0 = 1)
    (N1 : a1*a1 + b1*b1 + c1*c1 + d1*d1 = 1)
    (N2 : a2*a2 + b2*b2 + c2*c2 + d2*d2 = 1)
    (N3 : a3*a3 + b3*b3 + c3*c3 + d3*d3 = 1)
    (O01 : a0*a1 + b0*b1 + c0*c1 + d0*d1 = 0)
    (O02 : a0*a2 + b0*b2 + c0*c2 + d0*d2 = 0)
    (O03 : a0*a3 + b0*b3 + c0*c3 + d0*d3 = 0)
    (O12 : a1*a2 + b1*b2 + c1*c2 + d1*d2 = 0)
    (O13 : a1*a3 + b1*b3 + c1*c3 + d1*d3 = 0)
    (O23 : a2*a3 + b2*b3 + c2*c3 + d2*d3 = 0) :
    (a0*a0 + a1*a1 + a2*a2 + a3*a3 = 1) ∧
    (b0*b0 + b1*b1 + b2*b2 + b3*b3 = 1) ∧
    (c0*c0 + c1*c1 + c2*c2 + c3*c3 = 1) ∧
    (d0*d0 + d1*d1 + d2*d2 + d3*d3 = 1) ∧
    (a0*b0 + a1*b1 + a2*b2 + a3*b3 = 0) ∧
    (a0*c0 + a1*c1 + a2*c2 + a3*c3 = 0) ∧
    (a0*d0 + a1*d1 + a2*d2 + a3*d3 = 0) ∧
    (b0*c0 + b1*c1 + b2*c2 + b3*c3 = 0) ∧
    (b0*d0 + b1*d1 + b2*d2 + b3*d3 = 0) ∧
    (c0*d0 + c1*d1 + c2*d2 + c3*d3 = 0) := by
  have hM : (Matrix.of ![![a0, b0, c0, d0], ![a1, b1, c1, d1],
      ![a2, b2, c2, d2], ![a3, b3, c3, d3]]) *
      (Matrix.of ![![a0, a1, a2, a3], ![b0, b1, b2, b3],
      ![c0, c1, c2, c3], ![d0, d1, d2, d3]]) = 1 := by
    ext i j
    fin_cases i <;> fin_cases j <;>
      simp [Matrix.mul_apply, Fin.sum_univ_four, Matrix.one_apply] <;>
      first
        | linear_combination N0
        | linear_combination N1
        | linear_combination N2
        | linear_combination N3
        | linear_combination O01
        | linear_combination O02
        | linear_combination O03
        | linear_combination O12
        | linear_combination O13
        | linear_combination O23
  have hMt := Matrix.mul_eq_one_comm.mp hM
  have hcell : ∀ i j : Fin 4,
      ((Matrix.of ![![a0, a1, a2, a3], ![b0, b1, b2, b3],
        ![c0, c1, c2, c3], ![d0, d1, d2, d3]]) *
        (Matrix.of ![![a0, b0, c0, d0], ![a1, b1, c1, d1],
        ![a2, b2, c2, d2], ![a3, b3, c3, d3]])) i j =
        (1 : Matrix (Fin 4) (Fin 4) ℝ) i j :=
    fun i j => congrFun (congrFun hMt i) j
  refine ⟨?_, ?_, ?_, ?_, ?_, ?_, ?_, ?_, ?_, ?_⟩
  · have h := hcell 0 0
    simp [Matrix.mul_apply, Fin.sum_univ_four, Matrix.one_apply] at h
    linear_combination h
  · have h := hcell 1 1
    simp [Matrix.mul_apply, Fin.sum_univ_four, Matrix.one_apply] at h
    linear_combination h
  · have h := hcell 2 2
    simp [Matrix.mul_apply, Fin.sum_univ_four, Matrix.one_apply] at h
    linear_combination h
  · have h := hcell 3 3
    simp [Matrix.mul_apply, Fin.sum_univ_four, Matrix.one_apply] at h
    linear_combination h
  · have h := hcell 0 1
    simp [Matrix.mul_apply, Fin.sum_univ_four, Matrix.one_apply] at h
    linear_combination h
  · have h := hcell 0 2
    simp [Matrix.mul_apply, Fin.sum_univ_four, Matrix.one_apply] at h
    linear_combination h
  · have h := hcell 0 3
    simp [Matrix.mul_apply, Fin.sum_univ_four, Matrix.one_apply] at h
    linear_combination h
  · have h := hcell 1 2
    simp [Matrix.mul_apply, Fin.sum_univ_four, Matrix.one_apply] at h
    linear_combination h
  · have h := hcell 1 3
    simp [Matrix.mul_apply, Fin.sum_univ_four, Matrix.one_apply] at h
    linear_combination h
  · have h := hcell 2 3
    simp [Matrix.mul_apply, Fin.sum_univ_four, Matrix.one_apply] at h
    linear_combination h

lemma eigen_comps {lam A B C D : ℝ}
    (h : mulVecL [[(2 : ℝ), -1, 0, -1], [-1, 2, -1, 0], [0, -1, 2, -1],
      [-1, 0, -1, 2]] [A, B, C, D] = scale lam [A, B, C, D]) :
    lam * A = 2*A - B - D ∧ lam * B = -A + 2*B - C ∧
    lam * C = -B + 2*C - D ∧ lam * D = -A - C + 2*D := by
  simp [mulVecL, dot, scale] at h
  obtain ⟨h1, h2, h3, h4⟩ := h
  refine ⟨?_, ?_, ?_, ?_⟩ <;>
    first
      | linear_combination h1
      | linear_combination -h1
      | linear_combination h2
      | linear_combination -h2
      | linear_combination h3
      | linear_combination -h3
      | linear_combination h4
      | linear_combination -h4

lemma dot_self_four {A B C D : ℝ} (h : dot [A, B, C, D] [A, B, C, D] = 1) :
    A*A + B*B + C*C + D*D = 1 := by
  simp [dot] at h
  linear_combination h

lemma dot_cross_four {A B C D E F G H : ℝ}
    (h : dot [A, B, C, D] [E, F, G, H] = 0) :
    A*E + B*F + C*G + D*H = 0 := by
  simp [dot] at h
  linear_combination h

lemma lam_eq_quad {lam A B C D : ℝ}
    (f1 : lam * A = 2*A - B - D) (f2 : lam * B = -A + 2*B - C)
    (f3 : lam * C = -B + 2*C - D) (f4 : lam * D = -A - C + 2*D)
    (hN : A*A + B*B + C*C + D*D = 1) :
    lam = 2*(A*A + B*B + C*C + D*D) - 2*(A*B + B*C + C*D + D*A) := by
  linear_combination (-lam) * hN + A * f1 + B * f2 + C * f3 + D * f4

lemma lamsq_eq_quad {lam A B C D : ℝ}
    (f1 : lam * A = 2*A - B - D) (f2 : lam * B = -A + 2*B - C)
    (f3 : lam * C = -B + 2*C - D) (f4 : lam * D = -A - C + 2*D)
    (hN : A*A + B*B + C*C + D*D = 1) :
    lam * lam = (2*A - B - D)*(2*A - B - D) + (-A + 2*B - C)*(-A + 2*B - C)
      + (-B + 2*C - D)*(-B + 2*C - D) + (-A - C + 2*D)*(-A - C + 2*D) := by
  linear_combination (-(lam*lam)) * hN + (lam*A + 2*A - B - D) * f1
    + (lam*B + (-A + 2*B - C)) * f2 + (lam*C + (-B + 2*C - D)) * f3
    + (lam*D + (-A - C + 2*D)) * f4

lemma sorted_vals {l0 l1 l2 l3 : ℝ}
    (m0 : l0 = 0 ∨ l0 = 2 ∨ l0 = 4) (m1 : l1 = 0 ∨ l1 = 2 ∨ l1 = 4)
    (m2 : l2 = 0 ∨ l2 = 2 ∨ l2 = 4) (m3 : l3 = 0 ∨ l3 = 2 ∨ l3 = 4)
    (h01 : l0 ≤ l1) (h12 : l1 ≤ l2) (h23 : l2 ≤ l3)
    (hsum : l0 + l1 + l2 + l3 = 8)
    (hsq : l0*l0 + l1*l1 + l2*l2 + l3*l3 = 24) :
    l0 = 0 ∧ l1 = 2 ∧ l2 = 2 ∧ l3 = 4 := by
  rcases m0 with h | h | h <;> subst h <;>
    rcases m1 with h | h | h <;> subst h <;>
    rcases m2 with h | h | h <;> subst h <;>
    rcases m3 with h | h | h <;> subst h <;>
    norm_num at *

lemma cycle4_eigenvalues {b : SpectralBasis}
    (hb : IsBasisFor [[(2 : ℝ), -1, 0, -1], [-1, 2, -1, 0], [0, -1, 2, -1],
      [-1, 0, -1, 2]] b) :
    ∃ v0 v1 v2 v3 : List ℝ,
      b.pairs = [(0, v0), (2, v1), (2, v2), (4, v3)] ∧
      ∃ x : ℝ, v0 = [x, x, x, x] ∧ 4 * (x * x) = 1 := by
  have hlen4 : b.pairs.length = 4 := by rw [hb.dim_eq]; rfl
  obtain ⟨p0, p1, p2, p3, hp⟩ := list_len_four hlen4
  have m0 : p0 ∈ b.pairs := by rw [hp]; simp
  have m1 : p1 ∈ b.pairs := by rw [hp]; simp
  have m2 : p2 ∈ b.pairs := by rw [hp]; simp
  have m3 : p3 ∈ b.pairs := by rw [hp]; simp
  obtain ⟨A0, B0, C0, D0, hv0⟩ :=
    list_len_four (by rw [hb.vec_len p0 m0]; rfl : p0.2.length = 4)
  obtain ⟨A1, B1, C1, D1, hv1⟩ :=
    list_len_four (by rw [hb.vec_len p1 m1]; rfl : p1.2.length = 4)
  obtain ⟨A2, B2, C2, D2, hv2⟩ :=
    list_len_four (by rw [hb.vec_len p2 m2]; rfl : p2.2.length = 4)
  obtain ⟨A3, B3, C3, D3, hv3⟩ :=
    list_len_four (by rw [hb.vec_len p3 m3]; rfl : p3.2.length = 4)
  have n0 := unit_norm hb.ortho m0
  have n1 := unit_norm hb.ortho m1
  have n2 := unit_norm hb.ortho m2
  have n3 := unit_norm hb.ortho m3
  rw [hv0] at n0
  rw [hv1] at n1
  rw [hv2] at n2
  rw [hv3] at n3
  have N0 := dot_self_four n0
  have N1 := dot_self_four n1
  have N2 := dot_self_four n2
  have N3 := dot_self_four n3
  have hpw := ortho_pairwise hb.ortho
  rw [hp, List.pairwise_cons] at hpw
  obtain ⟨hh0, hpw⟩ := hpw
  rw [List.pairwise_cons] at hpw
  obtain ⟨hh1, hpw⟩ := hpw
  rw [List.pairwise_cons] at hpw
  obtain ⟨hh2, _⟩ := hpw
  have o01 := hh0 p1 (by simp)
  have o02 := hh0 p2 (by simp)
  have o03 := hh0 p3 (by simp)
  have o12 := hh1 p2 (by simp)
  have o13 := hh1 p3 (by simp)
  have o23 := hh2 p3 (by simp)
  rw [hv0, hv1] at o01
  rw [hv0, hv2] at o02
  rw [hv0, hv3] at o03
  rw [hv1, hv2] at o12
  rw [hv1, hv3] at o13
  rw [hv2, hv3] at o23
  have O01 := dot_cross_four o01
  have O02 := dot_cross_four o02
  have O03 := dot_cross_four o03
  have O12 := dot_cross_four o12
  have O13 := dot_cross_four o13
  have O23 := dot_cross_four o23
  have e0 := hb.eigen p0 m0
  have e1 := hb.eigen p1 m1
  have e2 := hb.eigen p2 m2
  have e3 := hb.eigen p3 m3
  rw [hv0] at e0
  rw [hv1] at e1
  rw [hv2] at e2
  rw [hv3] at e3
  obtain ⟨f01, f02, f03, f04⟩ := eigen_comps e0
  obtain ⟨f11, f12, f13, f14⟩ := eigen_comps e1
  obtain ⟨f21, f22, f23, f24⟩ := eigen_comps e2
  obtain ⟨f31, f32, f33, f34⟩ := eigen_comps e3
  have M0 := lam_cases f01 f02 f03 f04 N0
  have M1 := lam_cases f11 f12 f13 f14 N1
  have M2 := lam_cases f21 f22 f23 f24 N2
  have M3 := lam_cases f31 f32 f33 f34 N3
  have heigl : b.eigenvalues = [p0.1, p1.1, p2.1, p3.1] := by
    simp [SpectralBasis.eigenvalues, hp]
  have hsort := hb.sorted
  rw [heigl, List.sorted_cons] at hsort
  obtain ⟨hs0, hsort⟩ := hsort
  rw [List.sorted_cons] at hsort
  obtain ⟨hs1, hsort⟩ := hsort
  rw [List.sorted_cons] at hsort
  obtain ⟨hs2, _⟩ := hsort
  have h01 := hs0 p1.1 (by simp)
  have h12 := hs1 p2.1 (by simp)
  have h23 := hs2 p3.1 (by simp)
  obtain ⟨Caa, Cbb, Ccc, Cdd, Cab, Cac, Cad, Cbc, Cbd, Ccd⟩ :=
    col_ortho_four N0 N1 N2 N3 O01 O02 O03 O12 O13 O23
  have q0 := lam_eq_quad f01 f02 f03 f04 N0
  have q1 := lam_eq_quad f11 f12 f13 f14 N1
  have q2 := lam_eq_quad f21 f22 f23 f24 N2
  have q3 := lam_eq_quad f31 f32 f33 f34 N3
  have hsum : p0.1 + p1.1 + p2.1 + p3.1 = 8 := by
    linear_combination q0 + q1 + q2 + q3 + 2*Caa + 2*Cbb + 2*Ccc + 2*Cdd
      - 2*Cab - 2*Cbc - 2*Ccd - 2*Cad
  have r0 := lamsq_eq_quad f01 f02 f03 f04 N0
  have r1 := lamsq_eq_quad f11 f12 f13 f14 N1
  have r2 := lamsq_eq_quad f21 f22 f23 f24 N2
  have r3 := lamsq_eq_quad f31 f32 f33 f34 N3
  have hsq : p0.1*p0.1 + p1.1*p1.1 + p2.1*p2.1 + p3.1*p3.1 = 24 := by
    linear_combination r0 + r1 + r2 + r3 + 6*Caa + 6*Cbb + 6*Ccc + 6*Cdd
      - 8*Cab - 8*Cbc - 8*Ccd - 8*Cad + 4*Cac + 4*Cbd
  obtain ⟨hl0, hl1, hl2, hl3⟩ := sorted_vals M0 M1 M2 M3 h01 h12 h23 hsum hsq
  obtain ⟨hBA, hCA, hDA, hx⟩ := zero_shape f01 f02 f03 f04 N0 hl0
  refine ⟨p0.2, p1.2, p2.2, p3.2, ?_, A0, ?_, hx⟩
  · rw [hp]
    simp [Prod.ext_iff, hl0, hl1, hl2, hl3]
  · rw [hv0, hBA, hCA, hDA]

/-- C1: for the 4-vertex unit-weight cycle graph, every basis returned by
`SpectralBasisBuilder.build` has eigenvalue list exactly `[0, 2, 2, 4]`,
and applying a filter with gain 1 at eigenvalue 0 and gain 0 at every
positive eigenvalue sends every length-4 signal to the constant signal
each of whose entries is the input's mean. -/
theorem cycle4_spectrum_lowpass (b : SpectralBasis)
    (hb : Build cycle4 (Except.ok b)) :
    b.eigenvalues = [0, 2, 2, 4] ∧
    ∀ (s : List ℝ) (fn : ℝ → ℝ), s.length = 4 → fn 0 = 1 →
      (∀ lam ∈ b.eigenvalues, 0 < lam → fn lam = 0) →
      SpectralFilter.apply b s fn = Except.ok (List.replicate 4 (s.sum / 4)) := by
  obtain ⟨hW, hbas⟩ := build_ok hb
  rw [lap_cycle4] at hbas
  obtain ⟨v0, v1, v2, v3, hp, x, hv0, hx⟩ := cycle4_eigenvalues hbas
  have heigv : b.eigenvalues = [0, 2, 2, 4] := by
    simp [SpectralBasis.eigenvalues, hp]
  refine ⟨heigv, ?_⟩
  intro s fn hs hfn0 hfnpos
  have hfn2 : fn 2 = 0 := hfnpos 2 (by rw [heigv]; simp) (by norm_num)
  have hfn4 : fn 4 = 0 := hfnpos 4 (by rw [heigv]; simp) (by norm_num)
  obtain ⟨s0, s1, s2, s3, hsd⟩ := list_len_four hs
  have hdim : b.dim = 4 := by simp [SpectralBasis.dim, hp]
  have hslen : s.length = b.dim := by rw [hdim, hs]
  have hl1 : v1.length = 4 := by
    have h := hbas.vec_len (2, v1) (by rw [hp]; simp)
    simpa using h
  have hl2 : v2.length = 4 := by
    have h := hbas.vec_len (2, v2) (by rw [hp]; simp)
    simpa using h
  have hl3 : v3.length = 4 := by
    have h := hbas.vec_len (4, v3) (by rw [hp]; simp)
    simpa using h
  obtain ⟨A1, B1, C1, D1, hv1⟩ := list_len_four hl1
  obtain ⟨A2, B2, C2, D2, hv2⟩ := list_len_four hl2
  obtain ⟨A3, B3, C3, D3, hv3⟩ := list_len_four hl3
  subst hsd
  unfold SpectralFilter.apply
  rw [if_pos hslen]
  congr 1
  rw [hp, hdim, hv0, hv1, hv2, hv3]
  simp [dot, scale, vadd, zeros, hfn0, hfn2, hfn4]
  linear_combination ((s0 + s1 + s2 + s3) / 4) * hx

/-- A concrete orthonormal eigenbasis for the Laplacian of the 4-cycle. -/
noncomputable def cycleBasis : SpectralBasis :=
  ⟨[(0, [1/2, 1/2, 1/2, 1/2]),
    (2, [Real.sqrt 2 / 2, 0, -(Real.sqrt 2 / 2), 0]),
    (2, [0, Real.sqrt 2 / 2, 0, -(Real.sqrt 2 / 2)]),
    (4, [1/2, -(1/2), 1/2, -(1/2)])]⟩

lemma sqrt2_sq : Real.sqrt 2 * Real.sqrt 2 = 2 :=
  Real.mul_self_sqrt (by norm_num)

lemma cycle_isbasis : IsBasisFor [[(2 : ℝ), -1, 0, -1], [-1, 2, -1, 0],
    [0, -1, 2, -1], [-1, 0, -1, 2]] cycleBasis := by
  refine ⟨by simp [cycleBasis], ?_, ?_, ?_, ?_⟩
  · intro p hpmem
    simp only [cycleBasis, List.mem_cons, List.not_mem_nil, or_false] at hpmem
    rcases hpmem with h | h | h | h <;> subst h <;> simp
  · intro p hpmem
    simp only [cycleBasis, List.mem_cons, List.not_mem_nil, or_false] at hpmem
    rcases hpmem with h | h | h | h <;> subst h <;>
      simp [mulVecL, dot, scale] <;> norm_num
  · intro i j
    fin_cases i <;> fin_cases j <;> norm_num [cycleBasis, dot, Fin.ext_iff] <;>
      nlinarith [sqrt2_sq]
  · simp [cycleBasis, SpectralBasis.eigenvalues]
    norm_num [List.sorted_cons]

lemma cycle_build : Build cycle4 (Except.ok cycleBasis) :=
  Or.inr ⟨valid_cycle4, Or.inl ⟨cycleBasis, rfl, by
    rw [lap_cycle4]; exact cycle_isbasis⟩⟩

/-- The low-pass filter function of the C1 scenario: gain 1 at or below
frequency 0, gain 0 at positive frequencies. -/
noncomputable def lowpassFn : ℝ → ℝ := fun lam => if 0 < lam then 0 else 1

/-- Witness for C1: on the concrete orthonormal eigenbasis of the 4-cycle,
the low-pass filter sends the signal `[1, 2, 3, 4]` (mean 5/2) to the
constant signal `[5/2, 5/2, 5/2, 5/2]`. -/
theorem cycle4_spectrum_lowpass_witness :
    Build cycle4 (Except.ok cycleBasis) ∧
      cycleBasis.eigenvalues = [0, 2, 2, 4] ∧
      SpectralFilter.apply cycleBasis [1, 2, 3, 4] lowpassFn =
        Except.ok (List.replicate 4 (5 / 2)) := by
  have h := cycle4_spectrum_lowpass cycleBasis cycle_build
  refine ⟨cycle_build, h.1, ?_⟩
  have h2 := h.2 [1, 2, 3, 4] lowpassFn (by simp)
    (by simp [lowpassFn])
    (by intro lam _ hpos; simp [lowpassFn, hpos])
  have hsum : ([(1 : ℝ), 2, 3, 4].sum / 4) = 5 / 2 := by norm_num
  rw [hsum] at h2
  exact h2

/-- C10: in the repository's only code, the notebook's non-executed
`%%html` cells, the displayed filtered signal is produced by the single
`filter.analysis(y)` call: the demo cell contains exactly one analysis
operation and no weighting or synthesis operation, so its filtering
pipeline is not the spec's three-step `apply` procedure, and every cell of
the notebook is either markdown or a non-executed `%%html` cell — no
executable implementation of `build` or `apply` exists in the
repository. -/
theorem notebook_demo_analysis_only :
    demoFilterOps = [DemoOp.analysisCall] ∧
    demoCellOps.count DemoOp.analysisCall = 1 ∧
    DemoOp.weightingStep ∉ demoCellOps ∧
    DemoOp.synthesisStep ∉ demoCellOps ∧
    demoFilterOps ≠ specApplySteps ∧
    notebookCells.count CellKind.htmlMagicCell = 2 ∧
    ∀ c ∈ notebookCells,
      c = CellKind.markdownCell ∨ c = CellKind.htmlMagicCell := by
  refine ⟨rfl, by decide, by decide, by decide, by decide, by decide, ?_⟩
  intro c _
  cases c
  · exact Or.inl rfl
  · exact Or.inr rfl

end GSP
